import Mathlib

/-!
FINRA fetch-public: tokenizer and trade serializer.

A shallow embedding of `src/workflows/finra/fetch-public/function.cpp`.

* `std::string` is a finite sequence of `char`s: `Str := List Char`. Only equality of
  characters is ever used by the code under study.
* `std::string::find(delimiter)` returns the lowest offset of an occurrence, or `npos`;
  here `Option Nat`, with `none` for `npos`.
* The `while` loop of `splitByDelimiter` is embedded with an explicit bound on the number
  of evaluations of its condition (`fuel`); `none` means that the loop has not exited within
  that many evaluations. It is not an error value: the C++ function has none.
* `std::vector<std::string>` is `List Str`, `push_back` appends at the end.
-/

namespace FetchPublic

/-- A `std::string`: a finite sequence of characters. -/
abbrev Str := List Char

/-- `s.find(delimiter)`: the lowest offset at which `delimiter` occurs in `s`, `none` for
`std::string::npos`. The empty delimiter is found at offset 0 of every string. -/
def find (s delimiter : Str) : Option Nat :=
  if delimiter.isPrefixOf s then some 0
  else
    match s with
    | [] => none
    | _ :: rest => (find rest delimiter).map (· + 1)

/-- The `while` loop of `splitByDelimiter` (lines 28-32) followed by the final `push_back`.
Each unit of `fuel` pays for one evaluation of the loop condition
`(pos = stringCopy.find(delimiter)) != npos`. When the delimiter is found the body pushes
`stringCopy.substr(0, pos)` and erases `pos + delimiter.length()` leading characters; when
it is not, the loop exits and the remaining `stringCopy` is pushed. -/
def splitLoop : Nat → Str → Str → List Str → Option (List Str)
  | 0, _, _, _ => none
  | fuel + 1, delimiter, stringCopy, splitString =>
    match find stringCopy delimiter with
    | some pos =>
      splitLoop fuel delimiter (stringCopy.drop (pos + delimiter.length))
        (splitString ++ [stringCopy.take pos])
    | none => some (splitString ++ [stringCopy])

/-- `splitByDelimiter(stringCopy, delimiter)` (lines 22-35), run for at most `fuel`
evaluations of the loop condition, starting from an empty `splitString`. -/
def splitByDelimiter (fuel : Nat) (stringCopy delimiter : Str) : Option (List Str) :=
  splitLoop fuel delimiter stringCopy []

/-- `join(stringList, delimiter)` (lines 37-50): the empty vector gives the empty string;
otherwise `result` starts as element 0 and the `for` loop over the indices `1 .. size-1`
appends `delimiter` and then the element, in order. The index is a C++ `int`; it stays in
range for every vector of fewer than `2^31` strings, which is assumed here. -/
def join (stringList : List Str) (delimiter : Str) : Str :=
  match stringList with
  | [] => []
  | first :: rest => rest.foldl (fun result s => result ++ delimiter ++ s) first

/-- The call `splitByDelimiter(s, d)` returns `r`: there is a number of loop evaluations
from which on the bounded run yields exactly `r`. -/
def SplitsTo (s d : Str) (r : List Str) : Prop :=
  ∃ n, ∀ fuel, n ≤ fuel → splitByDelimiter fuel s d = some r

/-- A delimiter is unbordered when no proper non-empty prefix of it is also a suffix of it,
so that two occurrences of it in a text can never overlap. Every one-character delimiter is
unbordered; `"aa"` and `"aba"` are not. -/
def unbordered (d : Str) : Bool :=
  (List.range d.length).all fun k => decide (k = 0) || decide (d.take k ≠ d.drop (d.length - k))

/-! ## The serialized buffer (from the spec) -/

/-- Modelled from the spec: the binary layout of the Serialized Buffer, which `trade.h`
(not part of the sources) fixes. The spec gives a fixed-size header made of a format
version tag and a record count, then one fixed-size encoding per record, every numeric
field with a fixed width and a fixed endianness. The widths, the tag and the endianness are
left to the schema, so they are the fields of this structure. -/
structure Layout where
  version : Nat
  versionWidth : Nat
  countWidth : Nat
  fieldWidths : List Nat
  bigEndian : Bool

/-- Modelled from the spec: a Trade Record (`TradeData` of `trade.h`), the values of its
numeric fields in schema order, each taken as the unsigned number its fixed-width
encoding stands for. -/
abbrev TradeData := List Nat

/-- Modelled from the spec: the fixed-width encoding of `v` on `w` bytes, least significant
byte first. -/
def encodeLE : Nat → Nat → List Nat
  | 0, _ => []
  | w + 1, v => v % 256 :: encodeLE w (v / 256)

/-- Modelled from the spec: the number a sequence of bytes stands for, least significant
byte first. -/
def decodeLE : List Nat → Nat
  | [] => 0
  | b :: bs => b + 256 * decodeLE bs

/-- Modelled from the spec: fixed-width, fixed-endianness encoding of one numeric field. -/
def encodeFixed (bigEndian : Bool) (w v : Nat) : List Nat :=
  if bigEndian then (encodeLE w v).reverse else encodeLE w v

/-- Modelled from the spec: decoding of one fixed-width numeric field. -/
def decodeFixed (bigEndian : Bool) (bytes : List Nat) : Nat :=
  decodeLE (if bigEndian then bytes.reverse else bytes)

/-- Modelled from the spec: the fixed-size encoding of one record, its fields in schema
order, each on its own width. -/
def encodeRecord (bigEndian : Bool) : List Nat → TradeData → List Nat
  | w :: ws, v :: vs => encodeFixed bigEndian w v ++ encodeRecord bigEndian ws vs
  | _, _ => []

/-- Modelled from the spec: decoding of one record from its bytes, field by field. -/
def decodeRecord (bigEndian : Bool) : List Nat → List Nat → TradeData
  | [], _ => []
  | w :: ws, bytes =>
    decodeFixed bigEndian (bytes.take w) :: decodeRecord bigEndian ws (bytes.drop w)

/-- Modelled from the spec: the fixed size in bytes of one encoded record. -/
def recordSize (L : Layout) : Nat := L.fieldWidths.sum

/-- Modelled from the spec: `serializeTradeVector` of `trade.h`, called at line 111 and
whose body is not part of the sources. Header (version tag, record count), then the
records in input order. -/
def serializeTradeVector (L : Layout) (tradeData : List TradeData) : List Nat :=
  encodeFixed L.bigEndian L.versionWidth L.version ++
    encodeFixed L.bigEndian L.countWidth tradeData.length ++
    (tradeData.map (encodeRecord L.bigEndian L.fieldWidths)).flatten

/-- Modelled from the spec: decoding of `n` consecutive fixed-size records. -/
def decodeRecords (L : Layout) : Nat → List Nat → List TradeData
  | 0, _ => []
  | n + 1, bytes =>
    decodeRecord L.bigEndian L.fieldWidths (bytes.take (recordSize L)) ::
      decodeRecords L n (bytes.drop (recordSize L))

/-- Modelled from the spec: the two ways deserialization fails. -/
inductive DeserializeError where
  | UnsupportedVersion
  | TruncatedBuffer
  deriving DecidableEq

/-- Modelled from the spec: the deserializer of `trade.h`, whose body is not part of the
sources. It validates the version tag first (`UnsupportedVersion`), then the declared
record count against the actual buffer length (`TruncatedBuffer`), and only then decodes
the records. -/
def deserialize (L : Layout) (buffer : List Nat) : Except DeserializeError (List TradeData) :=
  if decodeFixed L.bigEndian (buffer.take L.versionWidth) ≠ L.version then
    .error .UnsupportedVersion
  else if buffer.length < L.versionWidth + L.countWidth then
    .error .TruncatedBuffer
  else
    let count := decodeFixed L.bigEndian ((buffer.drop L.versionWidth).take L.countWidth)
    let body := buffer.drop (L.versionWidth + L.countWidth)
    if body.length ≠ count * recordSize L then .error .TruncatedBuffer
    else .ok (decodeRecords L count body)

/-- Modelled from the spec: a layout is well formed when its version tag fits the header
field that carries it. -/
def validLayout (L : Layout) : Bool := decide (L.version < 256 ^ L.versionWidth)

/-- Modelled from the spec: a record is valid when it has exactly one value per schema
field and every value fits the width of its field. -/
def validRecord : List Nat → TradeData → Bool
  | [], [] => true
  | w :: ws, v :: vs => decide (v < 256 ^ w) && validRecord ws vs
  | _, _ => false

/-- Modelled from the spec: a valid Trade Record Sequence, one whose length fits the
header's count field and whose records are all valid. -/
def validSequence (L : Layout) (r : List TradeData) : Bool :=
  decide (r.length < 256 ^ L.countWidth) && r.all (validRecord L.fieldWidths)

/-! ## Lemmas on `find`, the split loop and `join` -/

theorem find_nil (d : Str) : find [] d = if d.isPrefixOf [] then some 0 else none := by
  unfold find; rfl

theorem find_cons (a : Char) (t d : Str) :
    find (a :: t) d = if d.isPrefixOf (a :: t) then some 0 else (find t d).map (· + 1) := by
  rw [find]

theorem find_some_decomp (d : Str) : ∀ (s : Str) (n : Nat), find s d = some n →
    ∃ r, s = s.take n ++ d ++ r := by
  intro s
  induction s with
  | nil =>
    intro n h
    rw [find_nil] at h
    split at h
    · rename_i hp
      rw [List.isPrefixOf_iff_prefix] at hp
      obtain ⟨r, hr⟩ := hp
      exact ⟨r, by simp [hr]⟩
    · cases h
  | cons a t ih =>
    intro n h
    rw [find_cons] at h
    split at h
    · rename_i hp
      rw [List.isPrefixOf_iff_prefix] at hp
      obtain ⟨r, hr⟩ := hp
      cases h
      exact ⟨r, by simp [hr]⟩
    · cases hf : find t d with
      | none => rw [hf] at h; cases h
      | some m =>
        rw [hf] at h
        cases h
        obtain ⟨r, hr⟩ := ih m hf
        refine ⟨r, ?_⟩
        simp only [List.take_succ_cons, List.cons_append]
        rw [← hr]

/-- Specification of `find`, found case: no occurrence starts before the reported offset. -/
theorem find_some_min (d : Str) : ∀ (s : Str) (n : Nat), find s d = some n →
    ∀ p r, s = p ++ d ++ r → n ≤ p.length := by
  intro s
  induction s with
  | nil =>
    intro n h p r hs
    rw [find_nil] at h
    split at h
    · cases h; exact Nat.zero_le _
    · cases h
  | cons a t ih =>
    intro n h p r hs
    rw [find_cons] at h
    split at h
    · cases h; exact Nat.zero_le _
    · rename_i hp
      cases hf : find t d with
      | none => rw [hf] at h; cases h
      | some m =>
        rw [hf] at h
        cases h
        cases p with
        | nil =>
          exfalso; apply hp
          rw [List.isPrefixOf_iff_prefix]
          exact ⟨r, by simpa using hs.symm⟩
        | cons b p =>
          simp only [List.cons_append, List.cons.injEq] at hs
          have := ih m hf p r (by simpa using hs.2)
          simp only [List.length_cons]; omega

/-- Specification of `find`, `npos` case: the delimiter occurs nowhere in the text. -/
theorem find_none_no (d : Str) : ∀ (s : Str), find s d = none →
    ∀ p r, s ≠ p ++ d ++ r := by
  intro s
  induction s with
  | nil =>
    intro h p r hs
    rw [find_nil] at h
    split at h
    · cases h
    · rename_i hp
      apply hp
      rw [List.isPrefixOf_iff_prefix]
      have : p = [] ∧ d = [] ∧ r = [] := by simpa using hs.symm
      simp [this.2.1]
  | cons a t ih =>
    intro h p r hs
    rw [find_cons] at h
    split at h
    · cases h
    · rename_i hp
      cases hf : find t d with
      | some m => rw [hf] at h; cases h
      | none =>
        cases p with
        | nil =>
          apply hp
          rw [List.isPrefixOf_iff_prefix]
          exact ⟨r, by simpa using hs.symm⟩
        | cons b p =>
          simp only [List.cons_append, List.cons.injEq] at hs
          exact ih hf p r (by simpa using hs.2)

theorem find_le_length (d s : Str) (n : Nat) (h : find s d = some n) :
    n + d.length ≤ s.length := by
  have hmin := find_some_min d s n h
  obtain ⟨r, hr⟩ := find_some_decomp d s n h
  have h1 := hmin _ _ hr
  have h2 := congrArg List.length hr
  simp only [List.length_append, List.length_take] at h2 h1
  omega

/-- Specification of `find`, found case: the text is the part before the occurrence, the
delimiter, and what `erase` leaves. -/
theorem find_some_drop (d s : Str) (n : Nat) (h : find s d = some n) :
    s = s.take n ++ d ++ s.drop (n + d.length) := by
  obtain ⟨r, hr⟩ := find_some_decomp d s n h
  have hl := find_le_length d s n h
  have : s.drop (n + d.length) = r := by
    conv_lhs => rw [hr]
    rw [List.drop_append_eq_append_drop]
    simp only [List.length_append, List.length_take]
    have h1 : min n s.length = n := by omega
    rw [h1, List.drop_of_length_le (by simp)]
    simp
  rw [this]; exact hr

/-- The offset of the leftmost occurrence is what `find` reports. -/
theorem find_leftmost (d p r : Str)
    (hmin : ∀ p' r', p ++ d ++ r = p' ++ d ++ r' → p.length ≤ p'.length) :
    find (p ++ d ++ r) d = some p.length := by
  cases hf : find (p ++ d ++ r) d with
  | none => exact absurd rfl (find_none_no d _ hf p r)
  | some n =>
    have h1 := find_some_min d _ n hf p r rfl
    have h2 := hmin _ _ (find_some_drop d _ n hf)
    have h3 := find_le_length d _ n hf
    simp only [List.length_take] at h2
    congr 1; omega

/-- The tokens already pushed are a prefix of the result; the loop never reads them. -/
theorem splitLoop_acc (d : Str) : ∀ (fuel : Nat) (s : Str) (acc : List Str),
    splitLoop fuel d s acc = (splitLoop fuel d s []).map (acc ++ ·) := by
  intro fuel
  induction fuel with
  | zero => intro s acc; rfl
  | succ k ih =>
    intro s acc
    simp only [splitLoop]
    cases find s d with
    | none => simp
    | some n =>
      simp only [List.nil_append]
      rw [ih _ (acc ++ [s.take n]), ih _ [s.take n], Option.map_map]
      congr 1
      funext x
      simp

theorem split_succ_none (fuel : Nat) (s d : Str) (h : find s d = none) :
    splitByDelimiter (fuel + 1) s d = some [s] := by
  simp [splitByDelimiter, splitLoop, h]

theorem split_succ_some (fuel : Nat) (s d : Str) (n : Nat) (h : find s d = some n) :
    splitByDelimiter (fuel + 1) s d =
      (splitByDelimiter fuel (s.drop (n + d.length)) d).map (s.take n :: ·) := by
  simp only [splitByDelimiter, splitLoop, h, List.nil_append]
  rw [splitLoop_acc]
  rfl

theorem splitsTo_none (s d : Str) (h : find s d = none) : SplitsTo s d [s] := by
  refine ⟨1, fun fuel hf => ?_⟩
  obtain ⟨k, rfl⟩ : ∃ k, fuel = k + 1 := ⟨fuel - 1, by omega⟩
  exact split_succ_none k s d h

theorem splitsTo_some (s d : Str) (n : Nat) (rest : List Str) (h : find s d = some n)
    (hr : SplitsTo (s.drop (n + d.length)) d rest) : SplitsTo s d (s.take n :: rest) := by
  obtain ⟨m, hm⟩ := hr
  refine ⟨m + 1, fun fuel hf => ?_⟩
  obtain ⟨k, rfl⟩ : ∃ k, fuel = k + 1 := ⟨fuel - 1, by omega⟩
  rw [split_succ_some k s d n h, hm k (by omega)]
  rfl

theorem splitsTo_unique (s d : Str) (r₁ r₂ : List Str) (h₁ : SplitsTo s d r₁)
    (h₂ : SplitsTo s d r₂) : r₁ = r₂ := by
  obtain ⟨a, ha⟩ := h₁
  obtain ⟨b, hb⟩ := h₂
  have := (ha (max a b) (le_max_left _ _)).symm.trans (hb (max a b) (le_max_right _ _))
  exact Option.some.inj this

theorem drop_le_of_find (s d : Str) (n : Nat) (h : find s d = some n) :
    (s.drop (n + d.length)).length + d.length ≤ s.length := by
  have := find_le_length d s n h
  simp only [List.length_drop]
  omega

/-- Induction along the loop for a non-empty delimiter: the call returns, and a property
that holds at exit and is preserved by one iteration holds of the result. -/
theorem split_induction (d : Str) (hd : d ≠ []) (P : Str → List Str → Prop)
    (base : ∀ s, find s d = none → P s [s])
    (step : ∀ s n rest, find s d = some n → SplitsTo (s.drop (n + d.length)) d rest →
      P (s.drop (n + d.length)) rest → P s (s.take n :: rest)) :
    ∀ s, ∃ r, SplitsTo s d r ∧ P s r := by
  have hpos : 0 < d.length := List.length_pos.mpr hd
  have key : ∀ len (s : Str), s.length ≤ len → ∃ r, SplitsTo s d r ∧ P s r := by
    intro len
    induction len with
    | zero =>
      intro s hs
      cases hf : find s d with
      | none => exact ⟨[s], splitsTo_none s d hf, base s hf⟩
      | some n =>
        have hlt := drop_le_of_find s d n hf
        omega
    | succ len ih =>
      intro s hs
      cases hf : find s d with
      | none => exact ⟨[s], splitsTo_none s d hf, base s hf⟩
      | some n =>
        have hlt := drop_le_of_find s d n hf
        obtain ⟨rest, hr, hP⟩ := ih (s.drop (n + d.length)) (by omega)
        exact ⟨s.take n :: rest, splitsTo_some s d n rest hf hr, step s n rest hf hr hP⟩
  exact fun s => key s.length s le_rfl

/-- The `for` loop of `join` only ever appends to `result`. -/
theorem join_foldl (d : Str) : ∀ (l : List Str) (a b : Str),
    l.foldl (fun result s => result ++ d ++ s) (a ++ b) =
      a ++ l.foldl (fun result s => result ++ d ++ s) b := by
  intro l
  induction l with
  | nil => intro a b; rfl
  | cons x l ih =>
    intro a b
    simp only [List.foldl_cons]
    rw [← ih a (b ++ d ++ x)]
    simp

theorem join_nil (d : Str) : join [] d = [] := rfl

theorem join_singleton (x d : Str) : join [x] d = x := rfl

theorem join_cons_cons (x y : Str) (rest : List Str) (d : Str) :
    join (x :: y :: rest) d = x ++ d ++ join (y :: rest) d := by
  simp only [join, List.foldl_cons]
  rw [join_foldl]

theorem join_eq_intercalate (d : Str) : ∀ parts : List Str,
    join parts d = List.intercalate d parts := by
  intro parts
  induction parts with
  | nil => rfl
  | cons x l ih =>
    cases l with
    | nil => simp [join, List.intercalate]
    | cons y l =>
      rw [join_cons_cons, ih]
      simp [List.intercalate, List.intersperse]

/-- More loop evaluations than needed do not change the result. -/
theorem split_mono (d : Str) : ∀ (fuel : Nat) (s : Str) (r : List Str),
    splitByDelimiter fuel s d = some r → ∀ fuel', fuel ≤ fuel' →
      splitByDelimiter fuel' s d = some r := by
  intro fuel
  induction fuel with
  | zero => intro s r h; cases h
  | succ k ih =>
    intro s r h fuel' hle
    obtain ⟨k', rfl⟩ : ∃ k', fuel' = k' + 1 := ⟨fuel' - 1, by omega⟩
    cases hf : find s d with
    | none =>
      rw [split_succ_none k s d hf] at h
      rw [split_succ_none k' s d hf, h]
    | some n =>
      rw [split_succ_some k s d n hf] at h
      rw [split_succ_some k' s d n hf]
      cases hk : splitByDelimiter k (s.drop (n + d.length)) d with
      | none => rw [hk] at h; cases h
      | some rest =>
        rw [hk] at h
        rw [ih _ rest hk k' (by omega)]
        exact h

theorem splitsTo_of_eq (fuel : Nat) (s d : Str) (r : List Str)
    (h : splitByDelimiter fuel s d = some r) : SplitsTo s d r :=
  ⟨fuel, split_mono d fuel s r h⟩

theorem splitsTo_total (s d : Str) (hd : d ≠ []) : ∃ r, SplitsTo s d r := by
  obtain ⟨r, hr, _⟩ := split_induction d hd (fun _ _ => True) (fun _ _ => trivial)
    (fun _ _ _ _ _ _ => trivial) s
  exact ⟨r, hr⟩

theorem find_none_of_absent (s d : Str) (h : ¬ d <:+: s) : find s d = none := by
  cases hf : find s d with
  | none => rfl
  | some n => exact absurd ⟨_, _, (find_some_drop d s n hf).symm⟩ h

theorem not_infix_of_find_none (s d : Str) (h : find s d = none) : ¬ d <:+: s := by
  rintro ⟨p, r, hs⟩
  exact find_none_no d s h p r hs.symm

theorem singleton_infix_iff (c : Char) (x : Str) : [c] <:+: x ↔ c ∈ x := by
  constructor
  · rintro ⟨a, b, h⟩
    rw [← h]; simp
  · intro h
    obtain ⟨a, b, h⟩ := List.mem_iff_append.mp h
    exact ⟨a, b, by simp [h]⟩

theorem mem_of_decomp_lt (c : Char) (p' r' x rest : Str)
    (h : x ++ rest = p' ++ [c] ++ r') (hlt : p'.length < x.length) : c ∈ x := by
  rw [List.append_assoc, List.append_eq_append_iff] at h
  rcases h with ⟨a, ha, _⟩ | ⟨b, hb, hc⟩
  · have := congrArg List.length ha
    simp only [List.length_append] at this
    omega
  · cases b with
    | nil =>
      have := congrArg List.length hb
      simp only [List.length_append, List.length_nil] at this
      omega
    | cons e b =>
      simp only [List.singleton_append, List.cons_append, List.cons.injEq] at hc
      rw [hb, hc.1]
      simp

theorem no_border_of_unbordered (d v : Str) (hu : unbordered d = true) (hv : v ≠ [])
    (hlt : v.length < d.length) (hp : v <+: d) (hs : v <:+ d) : False := by
  have hall := List.all_eq_true.mp hu v.length (List.mem_range.mpr hlt)
  have hpos : 0 < v.length := List.length_pos.mpr hv
  rw [List.prefix_iff_eq_take] at hp
  rw [List.suffix_iff_eq_drop] at hs
  simp only [Bool.or_eq_true, decide_eq_true_eq] at hall
  rcases hall with h0 | hne
  · omega
  · exact hne (hp.symm.trans hs)

theorem getLast_cons_of_some (x : Str) (r : List Str) (e : Str) (h : r.getLast? = some e) :
    (x :: r).getLast? = some e := by
  cases r with
  | nil => cases h
  | cons y l => simpa [List.getLast?_cons_cons] using h

/-- Every one-character delimiter is unbordered. -/
theorem unbordered_singleton (c : Char) : unbordered [c] = true := by
  simp [unbordered]

/-- For a delimiter with a border the trailing-delimiter property fails on some text: the
restriction to unbordered delimiters cannot be dropped for any delimiter. -/
theorem trailing_fails_of_bordered (d : Str) (hb : unbordered d = false) :
    ∃ t r, SplitsTo (t ++ d) d r ∧ r.getLast? ≠ some [] := by
  have hk : ∃ k, k < d.length ∧ k ≠ 0 ∧ d.take k = d.drop (d.length - k) := by
    by_contra hcon
    push_neg at hcon
    have : unbordered d = true := by
      apply List.all_eq_true.mpr
      intro k hk
      rw [List.mem_range] at hk
      by_cases h0 : k = 0
      · simp [h0]
      · simp [h0, hcon k hk h0]
    rw [this] at hb
    cases hb
  obtain ⟨k, hlt, h0, hbord⟩ := hk
  have hs : d.take (d.length - k) ++ d = [] ++ d ++ d.drop k := by
    calc d.take (d.length - k) ++ d
        = d.take (d.length - k) ++ (d.take k ++ d.drop k) := by rw [List.take_append_drop]
      _ = d.take (d.length - k) ++ (d.drop (d.length - k) ++ d.drop k) := by rw [hbord]
      _ = [] ++ d ++ d.drop k := by
        rw [← List.append_assoc, List.take_append_drop, List.nil_append]
  have hf : find ([] ++ d ++ d.drop k) d = some 0 :=
    find_leftmost d [] (d.drop k) (fun _ _ _ => Nat.zero_le _)
  have hrem : find (d.drop k) d = none := by
    apply find_none_of_absent
    intro h
    have := h.length_le
    simp only [List.length_drop] at this
    omega
  have hsplit := splitsTo_some ([] ++ d ++ d.drop k) d 0 [d.drop k] hf
    (by simpa using splitsTo_none (d.drop k) d hrem)
  refine ⟨d.take (d.length - k), [[], d.drop k], ?_, ?_⟩
  · rw [hs]; simpa using hsplit
  · have hne : d.drop k ≠ [] := by
      intro h
      have := congrArg List.length h
      simp only [List.length_drop, List.length_nil] at this
      omega
    simpa using hne

/-! ## Lemmas on the fixed-width encoding -/

theorem length_encodeLE : ∀ (w v : Nat), (encodeLE w v).length = w := by
  intro w
  induction w with
  | zero => intro v; rfl
  | succ w ih => intro v; simp [encodeLE, ih]

theorem decodeLE_encodeLE : ∀ (w v : Nat), v < 256 ^ w → decodeLE (encodeLE w v) = v := by
  intro w
  induction w with
  | zero => intro v hv; simp at hv; simp [encodeLE, decodeLE, hv]
  | succ w ih =>
    intro v hv
    have hdiv : v / 256 < 256 ^ w := by
      apply Nat.div_lt_of_lt_mul
      rw [pow_succ, Nat.mul_comm] at hv
      exact hv
    simp only [encodeLE, decodeLE, ih _ hdiv]
    omega

theorem length_encodeFixed (be : Bool) (w v : Nat) : (encodeFixed be w v).length = w := by
  cases be <;> simp [encodeFixed, length_encodeLE]

theorem decodeFixed_encodeFixed (be : Bool) (w v : Nat) (hv : v < 256 ^ w) :
    decodeFixed be (encodeFixed be w v) = v := by
  cases be <;> simp [encodeFixed, decodeFixed, decodeLE_encodeLE w v hv]

theorem length_encodeRecord (be : Bool) : ∀ (ws : List Nat) (vs : TradeData),
    validRecord ws vs = true → (encodeRecord be ws vs).length = ws.sum := by
  intro ws
  induction ws with
  | nil => intro vs _; cases vs <;> rfl
  | cons w ws ih =>
    intro vs hv
    cases vs with
    | nil => cases hv
    | cons v vs =>
      simp only [validRecord, Bool.and_eq_true, decide_eq_true_eq] at hv
      simp [encodeRecord, length_encodeFixed, ih vs hv.2]

theorem decodeRecord_encodeRecord (be : Bool) : ∀ (ws : List Nat) (vs : TradeData),
    validRecord ws vs = true → decodeRecord be ws (encodeRecord be ws vs) = vs := by
  intro ws
  induction ws with
  | nil => intro vs hv; cases vs with
    | nil => rfl
    | cons v vs => cases hv
  | cons w ws ih =>
    intro vs hv
    cases vs with
    | nil => cases hv
    | cons v vs =>
      simp only [validRecord, Bool.and_eq_true, decide_eq_true_eq] at hv
      simp only [encodeRecord, decodeRecord]
      rw [List.take_left' (length_encodeFixed be w v), List.drop_left' (length_encodeFixed be w v),
        decodeFixed_encodeFixed be w v hv.1, ih vs hv.2]

theorem length_body (L : Layout) : ∀ r : List TradeData,
    r.all (validRecord L.fieldWidths) = true →
      ((r.map (encodeRecord L.bigEndian L.fieldWidths)).flatten).length = r.length * recordSize L := by
  intro r
  induction r with
  | nil => intro _; simp
  | cons t r ih =>
    intro h
    simp only [List.all_cons, Bool.and_eq_true] at h
    simp only [List.map_cons, List.flatten_cons, List.length_append, List.length_cons,
      length_encodeRecord _ _ _ h.1, ih h.2, recordSize]
    rw [Nat.succ_mul]; omega

theorem decodeRecords_body (L : Layout) : ∀ r : List TradeData,
    r.all (validRecord L.fieldWidths) = true →
      decodeRecords L r.length ((r.map (encodeRecord L.bigEndian L.fieldWidths)).flatten) = r := by
  intro r
  induction r with
  | nil => intro _; rfl
  | cons t r ih =>
    intro h
    simp only [List.all_cons, Bool.and_eq_true] at h
    have hl : (encodeRecord L.bigEndian L.fieldWidths t).length = recordSize L :=
      length_encodeRecord _ _ _ h.1
    simp only [List.map_cons, List.flatten_cons, List.length_cons, decodeRecords]
    rw [List.take_left' hl, List.drop_left' hl, decodeRecord_encodeRecord _ _ _ h.1, ih h.2]

/-! ## The tokenizer -/

/-- C1, round-trip law of the tokenizer: for every string `s` and every non-empty delimiter
`d`, the call `splitByDelimiter(s, d)` returns a sequence `r`, and `join(r, d)` is `s`. -/
theorem join_split_roundtrip (s d : Str) (hd : d ≠ []) :
    ∃ r, SplitsTo s d r ∧ join r d = s := by
  obtain ⟨r, hr, _, hj⟩ := split_induction d hd (fun s r => r ≠ [] ∧ join r d = s)
    (fun s _ => ⟨by simp, rfl⟩)
    (fun s n rest hf _ hP => by
      refine ⟨by simp, ?_⟩
      obtain ⟨y, l, rfl⟩ := List.exists_cons_of_ne_nil hP.1
      rw [join_cons_cons, hP.2]
      exact (find_some_drop d s n hf).symm) s
  exact ⟨r, hr, hj⟩

theorem join_split_roundtrip_witness :
    ",".toList ≠ [] ∧
    ∃ r, SplitsTo "a,b,".toList ",".toList r ∧ join r ",".toList = "a,b,".toList :=
  ⟨by decide, join_split_roundtrip "a,b,".toList ",".toList (by decide)⟩

/-- C2, behaviour of the code on the empty delimiter: `find` reports an occurrence at
offset 0 of every string, the body then erases nothing, and so the loop condition holds at
every evaluation: no bound on the number of evaluations lets `splitByDelimiter(s, "")`
return. The empty delimiter is not rejected. -/
theorem split_empty_delimiter_diverges (s : Str) (fuel : Nat) :
    find s [] = some 0 ∧ s.drop (0 + ([] : Str).length) = s ∧
      splitByDelimiter fuel s [] = none := by
  have hfind : ∀ t : Str, find t [] = some 0 := by
    intro t; cases t <;> simp [find]
  refine ⟨hfind s, rfl, ?_⟩
  induction fuel generalizing s with
  | zero => rfl
  | succ k ih =>
    rw [split_succ_some k s [] 0 (hfind s)]
    simp [ih]

/-- C3 as stated fails: `"aaa"` ends with the delimiter `"aa"`, yet
`splitByDelimiter("aaa", "aa")` returns `["", "a"]`, whose last element is not empty: the
occurrence at offset 0 is consumed first and overlaps the trailing one. -/
theorem trailing_delimiter_overlap_counterexample :
    "aa".toList ≠ [] ∧ "aaa".toList = "a".toList ++ "aa".toList ∧
    SplitsTo "aaa".toList "aa".toList [[], "a".toList] ∧
    ¬ ∃ r, SplitsTo "aaa".toList "aa".toList r ∧ r.getLast? = some [] := by
  have h : SplitsTo "aaa".toList "aa".toList [[], "a".toList] :=
    splitsTo_of_eq 2 _ _ _ (by decide)
  refine ⟨by decide, by decide, h, ?_⟩
  rintro ⟨r, hr, hlast⟩
  have := splitsTo_unique _ _ _ _ hr h
  subst this
  revert hlast
  decide

/-- C3 amended, trailing delimiter yields a trailing empty element: for every non-empty
delimiter `d` that is unbordered (no proper non-empty prefix of `d` is also a suffix of
`d`, which holds of every one-character delimiter) and every string `s = t ++ d`, the call
`splitByDelimiter(s, d)` returns a sequence whose last element is the empty string. -/
theorem trailing_delimiter_unbordered (s t d : Str) (hd : d ≠ []) (hu : unbordered d = true)
    (hs : s = t ++ d) : ∃ r, SplitsTo s d r ∧ r.getLast? = some [] := by
  subst hs
  have hpos : 0 < d.length := List.length_pos.mpr hd
  have hnil : SplitsTo [] d [[]] :=
    splitsTo_none [] d (find_none_of_absent [] d (fun h => hd (List.eq_nil_of_infix_nil h)))
  have key : ∀ len (t : Str), t.length ≤ len →
      ∃ r, SplitsTo (t ++ d) d r ∧ r.getLast? = some [] := by
    intro len
    induction len with
    | zero =>
      intro t ht
      have : t = [] := List.length_eq_zero.mp (by omega)
      subst this
      have hf : find ([] ++ d) d = some 0 := by
        have := find_leftmost d [] [] (fun _ _ _ => Nat.zero_le _)
        simpa using this
      have h := splitsTo_some ([] ++ d) d 0 [[]] hf (by simpa using hnil)
      exact ⟨_, h, by simp⟩
    | succ len ih =>
      intro t ht
      cases hf : find (t ++ d) d with
      | none => exact absurd (by simp) (find_none_no d _ hf t [])
      | some n =>
        have hn : n ≤ t.length := find_some_min d _ n hf t [] (by simp)
        have hdec := find_some_drop d _ n hf
        have htake : (t ++ d).take n = t.take n := List.take_append_of_le_length hn
        rw [htake] at hdec
        -- the consumed occurrence is the final one, or ends before the final one starts
        have hfit : n = t.length ∨ n + d.length ≤ t.length := by
          by_contra hcon
          push_neg at hcon
          have hlt : n < t.length := by omega
          have h1 : t.take n ++ (t.drop n ++ d) =
              t.take n ++ (d ++ (t ++ d).drop (n + d.length)) := by
            rw [← List.append_assoc, List.take_append_drop, ← List.append_assoc]
            exact hdec
          have h2 := List.append_cancel_left h1
          rw [List.append_eq_append_iff] at h2
          rcases h2 with ⟨v, hv1, hv2⟩ | ⟨a, ha, _⟩
          · have hl := congrArg List.length hv1
            simp only [List.length_append, List.length_drop] at hl
            have hvne : v ≠ [] := by
              intro hv; subst hv; simp at hl; omega
            exact no_border_of_unbordered d v hu hvne (by omega)
              ⟨_, hv2.symm⟩ ⟨_, hv1.symm⟩
          · have hl := congrArg List.length ha
            simp only [List.length_append, List.length_drop] at hl
            omega
        rcases hfit with heq | hle
        · have hdrop : (t ++ d).drop (n + d.length) = [] :=
            List.drop_of_length_le (by simp [heq])
          have h := splitsTo_some (t ++ d) d n [[]] hf (by rw [hdrop]; exact hnil)
          exact ⟨_, h, by simp⟩
        · have hdrop : (t ++ d).drop (n + d.length) = t.drop (n + d.length) ++ d :=
            List.drop_append_of_le_length hle
          obtain ⟨r, hr, hlast⟩ := ih (t.drop (n + d.length))
            (by simp only [List.length_drop]; omega)
          have h := splitsTo_some (t ++ d) d n r hf (by rw [hdrop]; exact hr)
          exact ⟨_, h, getLast_cons_of_some _ r [] hlast⟩
  exact key t.length t le_rfl

theorem trailing_delimiter_unbordered_witness :
    "ab".toList ≠ [] ∧ unbordered "ab".toList = true ∧
    "1ab2ab".toList = "1ab2".toList ++ "ab".toList ∧
    ∃ r, SplitsTo "1ab2ab".toList "ab".toList r ∧ r.getLast? = some [] :=
  ⟨by decide, by decide, by decide,
    trailing_delimiter_unbordered "1ab2ab".toList "1ab2".toList "ab".toList
      (by decide) (by decide) (by decide)⟩

/-- C4, text without delimiter: for every non-empty delimiter `d` and every string `s` in
which `d` does not occur, `splitByDelimiter(s, d)` returns exactly `[s]`; and
`splitByDelimiter("", d)` returns `[""]`. -/
theorem split_no_delimiter (s d : Str) (hd : d ≠ []) (hfree : ¬ d <:+: s) :
    SplitsTo s d [s] ∧ SplitsTo [] d [[]] := by
  refine ⟨splitsTo_none s d (find_none_of_absent s d hfree), ?_⟩
  apply splitsTo_none
  apply find_none_of_absent
  intro h
  exact hd (List.eq_nil_of_infix_nil h)

theorem split_no_delimiter_witness :
    ",".toList ≠ [] ∧ ¬ ",".toList <:+: "abc".toList ∧
    SplitsTo "abc".toList ",".toList ["abc".toList] ∧ SplitsTo [] ",".toList [[]] :=
  ⟨by decide, by decide,
    split_no_delimiter "abc".toList ",".toList (by decide) (by decide)⟩

/-- C5, `join` is the reference intercalate: for every sequence `parts` and every
delimiter `d`, the empty one included, `join(parts, d)` is the concatenation of the
elements with `d` between consecutive ones; `join([], d)` is empty, `join([x], d)` is `x`,
and `join(x :: y :: rest, d)` is `x ++ d ++ join(y :: rest, d)`. -/
theorem join_is_intercalate (parts : List Str) (d x y : Str) (rest : List Str) :
    join parts d = List.intercalate d parts ∧ join [] d = [] ∧ join [x] d = x ∧
      join (x :: y :: rest) d = x ++ d ++ join (y :: rest) d :=
  ⟨join_eq_intercalate d parts, join_nil d, join_singleton x d, join_cons_cons x y rest d⟩

/-- C6, greedy leftmost split: for every non-empty delimiter `d` and every string
`s = p ++ d ++ r` in which no occurrence of `d` starts before offset `|p|`, the call
`splitByDelimiter(r, d)` returns some `rest` and `splitByDelimiter(s, d)` returns
`p :: rest`. An occurrence overlapping a consumed one is not split on:
`splitByDelimiter("aaa", "aa")` returns `["", "a"]`. -/
theorem split_leftmost (p d r : Str) (hd : d ≠ [])
    (hmin : ∀ p' r', p ++ d ++ r = p' ++ d ++ r' → p.length ≤ p'.length) :
    (∃ rest, SplitsTo r d rest ∧ SplitsTo (p ++ d ++ r) d (p :: rest)) ∧
      SplitsTo "aaa".toList "aa".toList [[], "a".toList] := by
  refine ⟨?_, splitsTo_of_eq 2 _ _ _ (by decide)⟩
  obtain ⟨rest, hrest⟩ := splitsTo_total r d hd
  refine ⟨rest, hrest, ?_⟩
  have hf := find_leftmost d p r hmin
  have h := splitsTo_some (p ++ d ++ r) d p.length rest hf (by simpa using hrest)
  simpa using h

theorem split_leftmost_witness :
    ",".toList ≠ [] ∧
    (∀ p' r', "a".toList ++ ",".toList ++ "b,c".toList = p' ++ ",".toList ++ r' →
      "a".toList.length ≤ p'.length) ∧
    (∃ rest, SplitsTo "b,c".toList ",".toList rest ∧
      SplitsTo ("a".toList ++ ",".toList ++ "b,c".toList) ",".toList ("a".toList :: rest)) ∧
    SplitsTo "aaa".toList "aa".toList [[], "a".toList] :=
  have hmin : ∀ p' r', "a".toList ++ ",".toList ++ "b,c".toList = p' ++ ",".toList ++ r' →
      "a".toList.length ≤ p'.length := by
    intro p' r' h
    cases p' with
    | nil => exact absurd (List.head_eq_of_cons_eq h) (by decide)
    | cons _ _ => simp
  ⟨by decide, hmin, split_leftmost "a".toList ",".toList "b,c".toList (by decide) hmin⟩

/-- C8, termination: for every string `s` and every non-empty delimiter `d`, each
iteration of the loop shortens the remaining string by at least `|d|` characters, and
`|s| / |d| + 1` evaluations of the loop condition (or any larger number) let
`splitByDelimiter(s, d)` return, with at most `|s| / |d| + 1` elements pushed. -/
theorem split_terminates (s d : Str) (hd : d ≠ []) :
    (∀ n, find s d = some n → (s.drop (n + d.length)).length + d.length ≤ s.length) ∧
    (∀ fuel, s.length / d.length + 1 ≤ fuel →
      ∃ r, splitByDelimiter fuel s d = some r ∧ r.length ≤ s.length / d.length + 1) := by
  have hpos : 0 < d.length := List.length_pos.mpr hd
  refine ⟨fun n hf => drop_le_of_find s d n hf, ?_⟩
  intro fuel
  induction fuel generalizing s with
  | zero => intro h; exact absurd h (Nat.not_succ_le_zero _)
  | succ k ih =>
    intro hk
    cases hf : find s d with
    | none => exact ⟨[s], split_succ_none k s d hf, by simp⟩
    | some n =>
      have hlt := drop_le_of_find s d n hf
      have hdiv : (s.drop (n + d.length)).length / d.length + 1 ≤ s.length / d.length := by
        rw [← Nat.add_div_right _ hpos]
        exact Nat.div_le_div_right hlt
      obtain ⟨rest, hr, hlen⟩ := ih (s.drop (n + d.length))
        (Nat.le_of_succ_le_succ (le_trans (Nat.succ_le_succ hdiv) hk))
      refine ⟨s.take n :: rest, ?_, ?_⟩
      · rw [split_succ_some k s d n hf, hr]; rfl
      · simp only [List.length_cons]
        exact Nat.succ_le_succ (le_trans hlen hdiv)

theorem split_terminates_witness :
    "--".toList ≠ [] ∧
    (∀ n, find "a--b--c".toList "--".toList = some n →
      ("a--b--c".toList.drop (n + "--".toList.length)).length + "--".toList.length
        ≤ "a--b--c".toList.length) ∧
    (∀ fuel, "a--b--c".toList.length / "--".toList.length + 1 ≤ fuel →
      ∃ r, splitByDelimiter fuel "a--b--c".toList "--".toList = some r ∧
        r.length ≤ "a--b--c".toList.length / "--".toList.length + 1) :=
  ⟨by decide, split_terminates "a--b--c".toList "--".toList (by decide)⟩

/-- C9, reverse round trip for one-character delimiters: for every delimiter `d` of length
exactly 1 and every non-empty sequence `parts` none of whose elements contains `d`,
`splitByDelimiter(join(parts, d), d)` returns `parts`. -/
theorem split_join_single_char (d : Str) (parts : List Str) (hd : d.length = 1)
    (hne : parts ≠ []) (hfree : ∀ x ∈ parts, ¬ d <:+: x) :
    SplitsTo (join parts d) d parts := by
  obtain ⟨c, rfl⟩ := List.length_eq_one.mp hd
  have hmem : ∀ x ∈ parts, c ∉ x := fun x hx hc =>
    hfree x hx ((singleton_infix_iff c x).mpr hc)
  clear hfree
  induction parts with
  | nil => exact absurd rfl hne
  | cons x l ih =>
    cases l with
    | nil =>
      rw [join_singleton]
      apply splitsTo_none
      apply find_none_of_absent
      intro h
      exact hmem x (by simp) ((singleton_infix_iff c x).mp h)
    | cons y l =>
      rw [join_cons_cons]
      have hrest := ih (by simp) (fun z hz => hmem z (List.mem_cons_of_mem _ hz))
      have hf : find (x ++ [c] ++ join (y :: l) [c]) [c] = some x.length := by
        apply find_leftmost
        intro p' r' he
        by_contra hlt
        rw [List.append_assoc] at he
        exact hmem x (by simp) (mem_of_decomp_lt c p' r' x _ he (by omega))
      have h := splitsTo_some _ [c] x.length (y :: l) hf (by simpa using hrest)
      simpa using h

theorem split_join_single_char_witness :
    ",".toList.length = 1 ∧ ["a".toList, [], "bc".toList] ≠ [] ∧
    (∀ x ∈ ["a".toList, [], "bc".toList], ¬ ",".toList <:+: x) ∧
    SplitsTo (join ["a".toList, [], "bc".toList] ",".toList) ",".toList
      ["a".toList, [], "bc".toList] :=
  ⟨by decide, by decide, by decide,
    split_join_single_char ",".toList ["a".toList, [], "bc".toList]
      (by decide) (by decide) (by decide)⟩

/-- C10, delimiter-free tokens: for every string `s` and every non-empty delimiter `d`,
`splitByDelimiter(s, d)` returns a non-empty sequence, no element of which contains `d`
as a substring. -/
theorem split_tokens_delimiter_free (s d : Str) (hd : d ≠ []) :
    ∃ r, SplitsTo s d r ∧ r ≠ [] ∧ ∀ x ∈ r, ¬ d <:+: x := by
  have hpos : 0 < d.length := List.length_pos.mpr hd
  refine split_induction d hd (fun _ r => r ≠ [] ∧ ∀ x ∈ r, ¬ d <:+: x) ?_ ?_ s
  · intro s hf
    refine ⟨by simp, ?_⟩
    intro x hx
    rw [List.mem_singleton] at hx
    subst hx
    exact not_infix_of_find_none x d hf
  · intro s n rest hf _ hP
    refine ⟨by simp, ?_⟩
    intro x hx
    rcases List.mem_cons.mp hx with rfl | hx
    · rintro ⟨a, b, hab⟩
      have hs := find_some_drop d s n hf
      rw [← hab] at hs
      have hmin := find_some_min d s n hf a (b ++ d ++ s.drop (n + d.length))
        (hs.trans (by simp))
      have hl := congrArg List.length hab
      simp only [List.length_append, List.length_take] at hl
      omega
    · exact hP.2 x hx

theorem split_tokens_delimiter_free_witness :
    "aa".toList ≠ [] ∧
    ∃ r, SplitsTo "aaaxaa".toList "aa".toList r ∧ r ≠ [] ∧ ∀ x ∈ r, ¬ "aa".toList <:+: x :=
  ⟨by decide, split_tokens_delimiter_free "aaaxaa".toList "aa".toList (by decide)⟩

/-! ## The serializer -/

/-- C7, serializer round-trip law: for every well-formed layout and every valid sequence
`r` of trade records, the empty one included, deserializing the buffer produced by
`serializeTradeVector(r)` succeeds and yields `r`, element for element and in order. -/
theorem deserialize_serialize_roundtrip (L : Layout) (r : List TradeData)
    (hL : validLayout L = true) (hr : validSequence L r = true) :
    deserialize L (serializeTradeVector L r) = .ok r := by
  simp only [validLayout, decide_eq_true_eq] at hL
  simp only [validSequence, Bool.and_eq_true, decide_eq_true_eq] at hr
  obtain ⟨hcnt, hrec⟩ := hr
  have hv := length_encodeFixed L.bigEndian L.versionWidth L.version
  have hc := length_encodeFixed L.bigEndian L.countWidth r.length
  have h1 : (serializeTradeVector L r).take L.versionWidth =
      encodeFixed L.bigEndian L.versionWidth L.version := by
    simp only [serializeTradeVector, List.append_assoc]
    exact List.take_left' hv
  have h2 : (serializeTradeVector L r).drop L.versionWidth =
      encodeFixed L.bigEndian L.countWidth r.length ++
        (r.map (encodeRecord L.bigEndian L.fieldWidths)).flatten := by
    simp only [serializeTradeVector, List.append_assoc]
    exact List.drop_left' hv
  have h3 : (serializeTradeVector L r).drop (L.versionWidth + L.countWidth) =
      (r.map (encodeRecord L.bigEndian L.fieldWidths)).flatten := by
    rw [← List.drop_drop, h2]
    exact List.drop_left' hc
  have hlen : (serializeTradeVector L r).length =
      L.versionWidth + L.countWidth + r.length * recordSize L := by
    simp only [serializeTradeVector, List.length_append, hv, hc, length_body L r hrec]
  unfold deserialize
  simp only [h1, h2, h3, List.take_left' hc, decodeFixed_encodeFixed _ _ _ hL,
    decodeFixed_encodeFixed _ _ _ hcnt, length_body L r hrec, decodeRecords_body L r hrec, hlen]
  simp

theorem deserialize_serialize_roundtrip_witness :
    validLayout (Layout.mk 1 4 4 [4, 8, 4] true) = true ∧
    validSequence (Layout.mk 1 4 4 [4, 8, 4] true) [[1, 1050, 100], [2, 1100, 200]] = true ∧
    deserialize (Layout.mk 1 4 4 [4, 8, 4] true)
      (serializeTradeVector (Layout.mk 1 4 4 [4, 8, 4] true) [[1, 1050, 100], [2, 1100, 200]])
      = .ok [[1, 1050, 100], [2, 1100, 200]] :=
  ⟨by decide, by decide,
    deserialize_serialize_roundtrip (Layout.mk 1 4 4 [4, 8, 4] true)
      [[1, 1050, 100], [2, 1100, 200]] (by decide) (by decide)⟩

end FetchPublic
